import Mathlib

/-!
Shallow embedding of the `fix-delimited-file` repository.

The embedding covers:
* the column statistics model (`ColumnMetadata` in `src/file-metadata.ts`:
  `add`, `toJSON`, `fromJson`, the derived `cardinality` getter),
* the anchor-column deriver (`getAnchorColumns` in `src/anchor-column.ts`),
* the line parser (`LineParser.parse` and `LineParser.#tryParseColumns`
  in `src/line-parser.ts`).

JavaScript machine details modelled explicitly:
* a JS `Set<string>` is an insertion-ordered duplicate-free `List String`
  (`setAdd` inserts only when absent, as `Set.prototype.add` does);
* an out-of-bounds array read yields `undefined`; where the source only
  tests membership of the read value, `undefined` behaves as a failed
  membership test; where the source concatenates it into a string, JS
  coerces it to the text `"undefined"`;
* assigning `result[i] = v` with `i` greater than the array length grows
  the array to length `i + 1`, leaving holes at the skipped positions.
  The parser's output list is therefore `List (Option String)`, where
  `none` is a hole or a stored `undefined` and `some s` is a string slot.
-/

namespace FixDelimitedFile

/-- JSON values, as produced by `JSON.parse` on the persisted cache
(numbers are modelled as integers; no claim distinguishes fractional
values). A JS object is passed around as a `List (String × Json)` of its
enumerable properties. -/
inductive Json where
  | null : Json
  | bool : Bool → Json
  | num : Int → Json
  | str : String → Json
  | arr : List Json → Json

/-- Property lookup `obj.k` on a JS object: the value at key `k`, or
`none` when the property is absent (JS `undefined`). -/
def jsLookup (o : List (String × Json)) (k : String) : Option Json :=
  (o.find? (fun p => p.1 == k)).map (·.2)

/-- Column statistics (`ColumnMetadata` class of `src/file-metadata.ts`):
the four authoritative fields. `uniqueValues` models the JS `Set<string>`
as its insertion-ordered element list. -/
structure ColumnMetadata where
  maxLength : Int
  name : String
  unbounded : Bool
  uniqueValues : List String
deriving DecidableEq

/-- JS `Set.prototype.add`: append the value when absent, else leave the
set unchanged. -/
def setAdd (s : List String) (v : String) : List String :=
  if s.contains v then s else s ++ [v]

/-- The `new ColumnMetadata(name)` constructor: `maxLength` 0, empty
value set, bounded. -/
def ColumnMetadata.init (name : String) : ColumnMetadata :=
  ⟨0, name, false, []⟩

/-- The `cardinality` getter: `null` when unbounded, else the size of
`uniqueValues`. -/
def ColumnMetadata.cardinality (x : ColumnMetadata) : Option Nat :=
  if x.unbounded then none else some x.uniqueValues.length

/-- `ColumnMetadata.add(value, maxCardinality)`: update `maxLength` to the
longest observed value; while bounded, insert the value and flip to
unbounded (clearing the set) once the distinct count exceeds
`maxCardinality`. -/
def ColumnMetadata.add (x : ColumnMetadata) (value : String)
    (maxCardinality : Nat) : ColumnMetadata :=
  let x := if x.maxLength < (value.length : Int) then
    { x with maxLength := (value.length : Int) } else x
  if x.unbounded then x
  else
    let uv := setAdd x.uniqueValues value
    if uv.length > maxCardinality then
      { x with unbounded := true, uniqueValues := [] }
    else
      { x with uniqueValues := uv }

/-- Folding a sequence of `add(value, maxCardinality)` calls over a
column, in order. -/
def applyAdds (x : ColumnMetadata) (ops : List (String × Nat)) :
    ColumnMetadata :=
  ops.foldl (fun c p => c.add p.1 p.2) x

/-- `ColumnMetadata.toJSON()`: the serialized object, with the derived
`cardinality` first and the set spread to an array in insertion order. -/
def ColumnMetadata.toJSON (x : ColumnMetadata) : List (String × Json) :=
  [ ("cardinality", match x.cardinality with
      | none => Json.null
      | some n => Json.num n),
    ("maxLength", Json.num x.maxLength),
    ("name", Json.str x.name),
    ("unbounded", Json.bool x.unbounded),
    ("uniqueValues", Json.arr (x.uniqueValues.map Json.str)) ]

/-- Check `typeof obj.f === "number"`. -/
def asNum : Option Json → Option Int
  | some (Json.num n) => some n
  | _ => none

/-- Check `typeof obj.f === "string"`. -/
def asStr : Option Json → Option String
  | some (Json.str s) => some s
  | _ => none

/-- Check `typeof obj.f === "boolean"`. -/
def asBool : Option Json → Option Bool
  | some (Json.bool b) => some b
  | _ => none

/-- Traverse the elements of a JSON array, succeeding only when every
element is a string (`!obj.uniqueValues.some(x => typeof x !==
"string")`). -/
def asStrListGo : List Json → Option (List String)
  | [] => some []
  | Json.str s :: rest => (asStrListGo rest).map (s :: ·)
  | _ => none

/-- Check `Array.isArray(obj.f)` with every element a string. -/
def asStrList : Option Json → Option (List String)
  | some (Json.arr xs) => asStrListGo xs
  | _ => none

/-- Message thrown by the `missingOrInvalidField` helper. -/
def missingOrInvalidField (field : String) : String :=
  "Missing or invalid type for field: " ++ field ++ "."

/-- `ColumnMetadata.fromJson(obj)`: validate the four authoritative
fields in the source's order, failing with the first offending field;
`new Set(obj.uniqueValues)` deduplicates the array. -/
def ColumnMetadata.fromJson (o : List (String × Json)) :
    Except String ColumnMetadata :=
  match asNum (jsLookup o "maxLength") with
  | none => Except.error (missingOrInvalidField "maxLength")
  | some n =>
  match asStr (jsLookup o "name") with
  | none => Except.error (missingOrInvalidField "name")
  | some nm =>
  match asBool (jsLookup o "unbounded") with
  | none => Except.error (missingOrInvalidField "unbounded")
  | some ub =>
  match asStrList (jsLookup o "uniqueValues") with
  | none => Except.error (missingOrInvalidField "uniqueValues")
  | some uv => Except.ok ⟨n, nm, ub, uv.foldl setAdd []⟩

/-- Specification-side deserialization contract, stated from §4.1/§7 of
the spec: the first missing-or-wrong-typed field among `maxLength`,
`name`, `unbounded`, `uniqueValues`, checked in that fixed order; `none`
when all four are present and well-typed. -/
def firstBadField (o : List (String × Json)) : Option String :=
  if (asNum (jsLookup o "maxLength")).isNone then some "maxLength"
  else if (asStr (jsLookup o "name")).isNone then some "name"
  else if (asBool (jsLookup o "unbounded")).isNone then some "unbounded"
  else if (asStrList (jsLookup o "uniqueValues")).isNone then
    some "uniqueValues"
  else none

/-- Anchor column entry (`AnchorColumn` interface of
`src/anchor-column.ts`): the count of unbounded columns before the
anchor, and the anchored bounded column's metadata (`none` for the
invisible final anchor). -/
structure AnchorColumn where
  previousColumns : Nat
  metadata : Option ColumnMetadata
deriving DecidableEq

/-- Loop body of `getAnchorColumns`: walk the columns keeping the run
length of consecutive unbounded columns; emit an anchor at each bounded
column, and an invisible final anchor when the last column is
unbounded. -/
def anchorsGo : Nat → List ColumnMetadata → List AnchorColumn
  | _, [] => []
  | run, c :: rest =>
    if c.unbounded then
      match rest with
      | [] => [⟨run + 1, none⟩]
      | _ :: _ => anchorsGo (run + 1) rest
    else
      ⟨run, some c⟩ :: anchorsGo 0 rest

/-- The `getAnchorColumns` function of `src/anchor-column.ts`. -/
def getAnchorColumns (columns : List ColumnMetadata) : List AnchorColumn :=
  anchorsGo 0 columns

/-- File metadata as consumed by the line parser: the ordered column
statistics. -/
structure FileMetadata where
  columns : List ColumnMetadata
deriving DecidableEq

/-- Modelled from the spec: the `anchorColumns` member of `FileMetadata`
that `LineParser.#tryParseColumns` destructures is absent from the
available `file-metadata.ts` source; per §4.2 and §6 the anchor list is
derived once per session from the column statistics by the pure
`deriveAnchors`/`getAnchorColumns` function. -/
def FileMetadata.anchorColumns (md : FileMetadata) : List AnchorColumn :=
  getAnchorColumns md.columns

/-- Read `result[result.length - 1]` during the merge-append statement
`result[result.length - 1] += sep + v`: on a nonempty array, concatenate
onto the last slot (a hole reads as `undefined`, which JS coerces to the
text `"undefined"`); on an empty array the assignment targets property
`-1`, which never becomes an array element. -/
def appendToLast (res : List (Option String)) (s : String) :
    List (Option String) :=
  match res.getLast? with
  | none => res
  | some slot => res.dropLast ++ [some (slot.getD "undefined" ++ s)]

/-- JS assignment `result[i] = v`: in-range indices are overwritten;
an index past the end grows the array to length `i + 1`, with holes at
the skipped positions. -/
def setSlot (res : List (Option String)) (i : Nat) (v : Option String) :
    List (Option String) :=
  if i < res.length then res.set i v
  else res ++ List.replicate (i - res.length) none ++ [v]

/-- JS array read coerced into a string concatenation: out-of-range reads
give `undefined`, which concatenation renders as `"undefined"`. -/
def jsGetStr (cols : List String) (i : Nat) : String :=
  (cols.get? i).getD "undefined"

/-- Scan loop of `#tryParseColumns` over the raw fields that remain from
the cursor on (`remaining = cols.drop cursor`): advance `extraColIndex`
until the anchor column matches. The loop exits immediately when the
anchor's column is unbounded; probing past the end of the fields reads
`undefined`, which fails the membership test; the loop returns `null`
(here `none`) when the fields are exhausted without a match. The result
is the final `extraColIndex` relative to the cursor. -/
def scanRem (m : ColumnMetadata) : List String → Option Nat
  | [] =>
    if m.unbounded then some 0 else none
  | v :: rest =>
    if m.unbounded then some 0
    else if m.uniqueValues.contains v then some 0
    else
      match rest with
      | [] => none
      | _ :: _ => (scanRem m rest).map (· + 1)

/-- Noise-absorption loop of `#tryParseColumns`: for `i < extra`, append
`sep + cols[ci + i]` onto the last emitted output value. -/
def appendExtras (sep : String) (cols : List String) (ci extra : Nat)
    (res : List (Option String)) : List (Option String) :=
  (List.range extra).foldl
    (fun r i => appendToLast r (sep ++ jsGetStr cols (ci + i))) res

/-- Invisible-anchor loop of `#tryParseColumns`: append every remaining
field, merge-separator-joined, onto the last emitted output value. -/
def mergeRest (sep : String) (remaining : List String)
    (res : List (Option String)) : List (Option String) :=
  remaining.foldl (fun r c => appendToLast r (sep ++ c)) res

/-- Processing of one anchor inside `#tryParseColumns`: bounds-check and
copy the `previousColumns` fields, then either lock onto the anchor's
bounded column (scanning forward, absorbing skipped noise, writing the
anchor value at `result[colIndex]`) or, for the invisible final anchor,
absorb every remaining field. Returns the updated cursor and output, or
`none` for the `return null` paths. -/
def applyAnchor (sep : String) (cols : List String) (a : AnchorColumn)
    (ci : Nat) (res : List (Option String)) :
    Option (Nat × List (Option String)) :=
  if ci + a.previousColumns > cols.length then none
  else
    let res1 := res ++ ((cols.drop ci).take a.previousColumns).map some
    let ci1 := ci + a.previousColumns
    match a.metadata with
    | some m =>
      match scanRem m (cols.drop ci1) with
      | none => none
      | some extra =>
        if 0 < extra ∧ a.previousColumns = 0 then none
        else
          let res2 := appendExtras sep cols ci1 extra res1
          let res3 := setSlot res2 ci1 (cols.get? (ci1 + extra))
          some (ci1 + extra + 1, res3)
    | none =>
      some (max ci1 cols.length, mergeRest sep (cols.drop ci1) res1)

/-- The `for (const anchor of anchorColumns)` loop of
`#tryParseColumns`, threading the cursor and output through the anchors
and stopping at the first `return null`. -/
def goAnchors (sep : String) (cols : List String) :
    List AnchorColumn → Nat → List (Option String) →
    Option (Nat × List (Option String))
  | [], ci, res => some (ci, res)
  | a :: rest, ci, res =>
    match applyAnchor sep cols a ci res with
    | none => none
    | some (ci', res') => goAnchors sep cols rest ci' res'

/-- `LineParser.#tryParseColumns(cols)`: fail when fewer raw fields than
declared columns, walk the anchors, and fail unless the cursor consumed
every field. -/
def tryParseColumns (md : FileMetadata) (sep : String)
    (cols : List String) : Option (List (Option String)) :=
  if cols.length < md.columns.length then none
  else
    match goAnchors sep cols md.anchorColumns 0 [] with
    | none => none
    | some (ci, res) => if ci < cols.length then none else some res

/-- Splitting loop over the character list: cut at each occurrence of
the (nonempty) delimiter. The fuel argument only bounds the recursion
and exceeds the consumed characters, so its fallback branch is never
reached. -/
def splitFuel (dl : List Char) : Nat → List Char → List Char →
    List (List Char)
  | 0, s, acc => [acc.reverse ++ s]
  | _ + 1, [], acc => [acc.reverse]
  | fuel + 1, c :: cs, acc =>
    if dl.isPrefixOf (c :: cs) then
      acc.reverse :: splitFuel dl fuel ((c :: cs).drop dl.length) []
    else
      splitFuel dl fuel cs (c :: acc)

/-- JS `line.split(delimiter)` for a nonempty delimiter: the maximal
delimiter-free chunks, keeping empty chunks (`"a||b"` gives
`["a", "", "b"]`, `""` gives `[""]`). An empty delimiter is modelled as
no split (the tool's delimiters are single characters such as `"|"`). -/
def jsSplit (s delim : String) : List String :=
  if delim = "" then [s]
  else (splitFuel delim.data (s.data.length + 1) s.data []).map String.mk

/-- Result of `LineParser.parse`: the resolved columns (or `null`), and
the unprocessed lines returned on success. -/
structure ParseOutput where
  columns : Option (List (Option String))
  unprocessedLines : List String
deriving DecidableEq

/-- Retry loop of `LineParser.parse`: for each skip count (smallest
first), flatten the split raw fields of the kept lines and attempt
alignment; the skipped lines accompany the first success. The loop
stops after skip count `pending.length - 1`. -/
def mergeLoop (delim : String) (md : FileMetadata) (sep : String) :
    List String → List String →
    Option (List (Option String) × List String)
  | _, [] => none
  | skipped, l :: ls =>
    match tryParseColumns md sep ((l :: ls).flatMap (jsSplit · delim)) with
    | some c => some (c, skipped)
    | none => mergeLoop delim md sep (skipped ++ [l]) ls

/-- `LineParser.parse(line)` with the instance state (`#lines`) passed
explicitly: returns the parse output together with the new pending
buffer. -/
def parse (delim : String) (md : FileMetadata) (sep : String)
    (st : List String) (line : String) : ParseOutput × List String :=
  let cols := jsSplit line delim
  match tryParseColumns md sep cols with
  | some columns => (⟨some columns, st⟩, [])
  | none =>
    let lines := st ++ [line]
    if 1 < lines.length then
      match mergeLoop delim md sep [] lines with
      | some (columns, skipped) => (⟨some columns, skipped⟩, [])
      | none => (⟨none, []⟩, lines)
    else (⟨none, []⟩, lines)

/-! Variant of the alignment algorithm whose scan always performs the
membership test, with the `anchor.metadata.unbounded` short-circuit of
the source's while-condition removed. Comparing it with the source
algorithm expresses that the accept-without-scan branch is never taken
for anchors produced by `getAnchorColumns`. -/

/-- Scan loop with the unbounded short-circuit removed. -/
def scanRemStrict (m : ColumnMetadata) : List String → Option Nat
  | [] => none
  | v :: rest =>
    if m.uniqueValues.contains v then some 0
    else
      match rest with
      | [] => none
      | _ :: _ => (scanRemStrict m rest).map (· + 1)

/-- Anchor processing using `scanRemStrict`. -/
def applyAnchorStrict (sep : String) (cols : List String)
    (a : AnchorColumn) (ci : Nat) (res : List (Option String)) :
    Option (Nat × List (Option String)) :=
  if ci + a.previousColumns > cols.length then none
  else
    let res1 := res ++ ((cols.drop ci).take a.previousColumns).map some
    let ci1 := ci + a.previousColumns
    match a.metadata with
    | some m =>
      match scanRemStrict m (cols.drop ci1) with
      | none => none
      | some extra =>
        if 0 < extra ∧ a.previousColumns = 0 then none
        else
          let res2 := appendExtras sep cols ci1 extra res1
          let res3 := setSlot res2 ci1 (cols.get? (ci1 + extra))
          some (ci1 + extra + 1, res3)
    | none =>
      some (max ci1 cols.length, mergeRest sep (cols.drop ci1) res1)

/-- Anchor loop using `applyAnchorStrict`. -/
def goAnchorsStrict (sep : String) (cols : List String) :
    List AnchorColumn → Nat → List (Option String) →
    Option (Nat × List (Option String))
  | [], ci, res => some (ci, res)
  | a :: rest, ci, res =>
    match applyAnchorStrict sep cols a ci res with
    | none => none
    | some (ci', res') => goAnchorsStrict sep cols rest ci' res'

/-- Alignment using the scan without the unbounded short-circuit. -/
def tryParseColumnsStrict (md : FileMetadata) (sep : String)
    (cols : List String) : Option (List (Option String)) :=
  if cols.length < md.columns.length then none
  else
    match goAnchorsStrict sep cols md.anchorColumns 0 [] with
    | none => none
    | some (ci, res) => if ci < cols.length then none else some res

/-! Instrumented embedding: the same algorithm with every array access
recorded, used to settle the in-bounds part of the safety claim. Each
indexing step of the source is mirrored by a flag (or a probe index)
stating whether that access was within the array's current bounds. -/

/-- Bounds record of one alignment run. `readsOk`: every raw-field read
outside the scan's membership probes hit an existing index. `writesOk`:
the `result[colIndex] = ...` assignment never wrote past the output's
current length. `lastOk`: `result[result.length - 1]` was never accessed
on an empty output. The scan's membership probe indices are collected
separately by `scanRemAcc`. -/
structure AccFlags where
  readsOk : Bool
  probesStrict : Bool
  probesNear : Bool
  writesOk : Bool
  lastOk : Bool
deriving DecidableEq

/-- Record with every access in bounds. -/
def AccFlags.allOk : AccFlags := ⟨true, true, true, true, true⟩

/-- Conjunction of two bounds records. -/
def AccFlags.and (f g : AccFlags) : AccFlags :=
  ⟨f.readsOk && g.readsOk, f.probesStrict && g.probesStrict,
   f.probesNear && g.probesNear, f.writesOk && g.writesOk,
   f.lastOk && g.lastOk⟩

/-- Scan loop returning, besides the final `extraColIndex`, the offsets
(relative to the cursor) at which the while-condition probed the raw
fields with a membership test. -/
def scanRemAcc (m : ColumnMetadata) : List String → Option Nat × List Nat
  | [] =>
    if m.unbounded then (some 0, []) else (none, [0])
  | v :: rest =>
    if m.unbounded then (some 0, [])
    else if m.uniqueValues.contains v then (some 0, [0])
    else
      match rest with
      | [] => (none, [0])
      | _ :: _ =>
        ((scanRemAcc m rest).1.map (· + 1),
         0 :: (scanRemAcc m rest).2.map (· + 1))

/-- Anchor processing with every access recorded. -/
def applyAnchorAcc (sep : String) (cols : List String) (a : AnchorColumn)
    (ci : Nat) (res : List (Option String)) :
    Option (Nat × List (Option String)) × AccFlags :=
  if ci + a.previousColumns > cols.length then (none, AccFlags.allOk)
  else
    let prevReads := (List.range a.previousColumns).all
      (fun i => decide (ci + i < cols.length))
    let res1 := res ++ ((cols.drop ci).take a.previousColumns).map some
    let ci1 := ci + a.previousColumns
    match a.metadata with
    | some m =>
      let scanned := scanRemAcc m (cols.drop ci1)
      let pStrict := scanned.2.all (fun p => decide (ci1 + p < cols.length))
      let pNear := scanned.2.all (fun p => decide (ci1 + p ≤ cols.length))
      match scanned.1 with
      | none => (none, ⟨prevReads, pStrict, pNear, true, true⟩)
      | some extra =>
        if 0 < extra ∧ a.previousColumns = 0 then
          (none, ⟨prevReads, pStrict, pNear, true, true⟩)
        else
          let extraReads := (List.range extra).all
            (fun i => decide (ci1 + i < cols.length))
          let anchorRead := decide (ci1 + extra < cols.length)
          let appends := decide (extra = 0) || decide (res1 ≠ [])
          let res2 := appendExtras sep cols ci1 extra res1
          let wOk := decide (ci1 ≤ res2.length)
          let res3 := setSlot res2 ci1 (cols.get? (ci1 + extra))
          (some (ci1 + extra + 1, res3),
           ⟨prevReads && extraReads && anchorRead, pStrict, pNear, wOk,
            appends⟩)
    | none =>
      let merges := decide ((cols.drop ci1).isEmpty = true) ||
        decide (res1 ≠ [])
      (some (max ci1 cols.length, mergeRest sep (cols.drop ci1) res1),
       ⟨prevReads, true, true, true, merges⟩)

/-- Anchor loop with recorded accesses; recording stops at the first
`return null`, as execution does. -/
def goAnchorsAcc (sep : String) (cols : List String) :
    List AnchorColumn → Nat → List (Option String) →
    Option (Nat × List (Option String)) × AccFlags
  | [], ci, res => (some (ci, res), AccFlags.allOk)
  | a :: rest, ci, res =>
    match applyAnchorAcc sep cols a ci res with
    | (none, f) => (none, f)
    | (some (ci', res'), f) =>
      ((goAnchorsAcc sep cols rest ci' res').1,
       f.and (goAnchorsAcc sep cols rest ci' res').2)

/-- `#tryParseColumns` with recorded accesses. -/
def tryParseColumnsAcc (md : FileMetadata) (sep : String)
    (cols : List String) : Option (List (Option String)) × AccFlags :=
  if cols.length < md.columns.length then (none, AccFlags.allOk)
  else
    match goAnchorsAcc sep cols md.anchorColumns 0 [] with
    | (none, f) => (none, f)
    | (some (ci, res), f) =>
      (if ci < cols.length then none else some res, f)

/-- Retry loop with recorded accesses. -/
def mergeLoopAcc (delim : String) (md : FileMetadata) (sep : String) :
    List String → List String →
    Option (List (Option String) × List String) × AccFlags
  | _, [] => (none, AccFlags.allOk)
  | skipped, l :: ls =>
    match tryParseColumnsAcc md sep
        ((l :: ls).flatMap (jsSplit · delim)) with
    | (some c, f) => (some (c, skipped), f)
    | (none, f) =>
      ((mergeLoopAcc delim md sep (skipped ++ [l]) ls).1,
       f.and (mergeLoopAcc delim md sep (skipped ++ [l]) ls).2)

/-- `LineParser.parse` with every array access of the alignment loop
recorded. -/
def parseAcc (delim : String) (md : FileMetadata) (sep : String)
    (st : List String) (line : String) :
    (ParseOutput × List String) × AccFlags :=
  let cols := jsSplit line delim
  match tryParseColumnsAcc md sep cols with
  | (some columns, f) => ((⟨some columns, st⟩, []), f)
  | (none, f) =>
    let lines := st ++ [line]
    if 1 < lines.length then
      match mergeLoopAcc delim md sep [] lines with
      | (some (columns, skipped), f') =>
        ((⟨some columns, skipped⟩, []), f.and f')
      | (none, f') => ((⟨none, []⟩, lines), f.and f')
    else ((⟨none, []⟩, lines), f)

/-! Concrete fixtures used by counterexamples and witnesses. -/

/-- File with one unbounded column followed by two bounded columns whose
value sets are `{"a"}` and `{"b"}`. Its anchors are
`[{previousColumns: 1, metadata: a-column}, {previousColumns: 0,
metadata: b-column}]`. -/
def exMetaUAB : FileMetadata :=
  ⟨[⟨0, "u", true, []⟩, ⟨0, "a", false, ["a"]⟩, ⟨0, "b", false, ["b"]⟩]⟩

/-- File with two bounded columns (`{"b1"}`, `{"b2"}`) followed by one
unbounded column. -/
def exMetaBBU : FileMetadata :=
  ⟨[⟨0, "c1", false, ["b1"]⟩, ⟨0, "c2", false, ["b2"]⟩,
    ⟨0, "c3", true, []⟩]⟩

/-! Theorems. -/

/-- Helper: a nonempty all-unbounded column list collapses, for any
accumulated run, into a single invisible anchor. -/
theorem anchorsGo_all_unbounded (cs : List ColumnMetadata) :
    ∀ run : Nat, cs ≠ [] → (∀ c ∈ cs, c.unbounded = true) →
    anchorsGo run cs = [⟨run + cs.length, none⟩] := by
  induction cs with
  | nil => intro run h _; exact absurd rfl h
  | cons c rest ih =>
    intro run _ h
    have hc : c.unbounded = true := h c (by simp)
    cases rest with
    | nil => simp [anchorsGo, hc]
    | cons r rs =>
      have hrec := ih (run + 1) (by simp)
        (fun x hx => h x (List.mem_cons_of_mem _ hx))
      have step : anchorsGo run (c :: r :: rs) = anchorsGo (run + 1) (r :: rs) := by
        simp only [anchorsGo, hc, if_true]
      rw [step, hrec]
      simp only [List.length_cons, List.cons.injEq, AnchorColumn.mk.injEq,
        and_true]
      omega

/-- Helper: an all-bounded column list yields one anchor per column with
no accumulated run. -/
theorem anchorsGo_all_bounded (cs : List ColumnMetadata) :
    (∀ c ∈ cs, c.unbounded = false) →
    anchorsGo 0 cs = cs.map (fun c => ⟨0, some c⟩) := by
  induction cs with
  | nil => intro _; rfl
  | cons c rest ih =>
    intro h
    have hc : c.unbounded = false := h c (by simp)
    simp only [anchorsGo, hc, Bool.false_eq_true, if_false, List.map_cons,
      List.cons.injEq, true_and]
    exact ih (fun x hx => h x (List.mem_cons_of_mem _ hx))

/-- C8: `getAnchorColumns` satisfies the three endpoint cases of the
derivation rule: a nonempty all-unbounded sequence yields the single
anchor `{previousColumns: N}` with no metadata; an all-bounded sequence
yields one anchor per column, in order, with `previousColumns = 0`; the
empty sequence yields the empty list. -/
theorem getAnchorColumns_endpoint_cases :
    (∀ cs : List ColumnMetadata, cs ≠ [] →
      (∀ c ∈ cs, c.unbounded = true) →
      getAnchorColumns cs = [⟨cs.length, none⟩]) ∧
    (∀ cs : List ColumnMetadata, (∀ c ∈ cs, c.unbounded = false) →
      getAnchorColumns cs = cs.map (fun c => ⟨0, some c⟩)) ∧
    getAnchorColumns ([] : List ColumnMetadata) = [] := by
  refine ⟨fun cs hne hub => ?_, fun cs hb => ?_, rfl⟩
  · have := anchorsGo_all_unbounded cs 0 hne hub
    simpa [getAnchorColumns] using this
  · exact anchorsGo_all_bounded cs hb

/-- Witness for C8 at concrete inputs: two unbounded columns collapse to
one invisible anchor, and one bounded column maps to one anchor. -/
theorem getAnchorColumns_endpoint_cases_witness :
    getAnchorColumns [⟨0, "x", true, []⟩, ⟨0, "y", true, []⟩] =
      [⟨2, none⟩] ∧
    getAnchorColumns [⟨0, "z", false, ["v"]⟩] =
      [⟨0, some ⟨0, "z", false, ["v"]⟩⟩] := by
  constructor
  · exact getAnchorColumns_endpoint_cases.1 _ (by decide) (by decide)
  · exact getAnchorColumns_endpoint_cases.2.1 _ (by decide)

/-- C1 (refuting evaluation): with one unbounded column before two
bounded anchor columns, a line whose first bounded anchor absorbs one
noise field parses "successfully" into four slots with a hole at index 2
(`result[colIndex] = ...` indexes the output by the raw-field cursor),
instead of one value per the three declared columns. The expected
resolved row would be `["u noise", "a", "b"]`. -/
theorem parse_hole_when_earlier_anchor_absorbs_noise :
    parse "|" exMetaUAB " " [] "u|noise|a|b" =
      (⟨some [some "u noise", some "a", none, some "b"], []⟩, []) ∧
    exMetaUAB.columns.length = 3 := by
  constructor <;> rfl

/-- Helper: closed form of one `add` call by cases on the latch and the
cardinality test. -/
theorem add_eq (x : ColumnMetadata) (v : String) (mc : Nat) :
    x.add v mc =
      (let ml : Int := if x.maxLength < (v.length : Int)
        then (v.length : Int) else x.maxLength
      if x.unbounded then ⟨ml, x.name, true, x.uniqueValues⟩
      else if (setAdd x.uniqueValues v).length > mc then ⟨ml, x.name, true, []⟩
      else ⟨ml, x.name, false, setAdd x.uniqueValues v⟩) := by
  cases x with
  | mk ml0 nm ub uv =>
    by_cases h1 : ml0 < (v.length : Int) <;> cases ub <;>
      simp [ColumnMetadata.add, h1]

/-- Helper: `Set.prototype.add` keeps the element list duplicate-free. -/
theorem setAdd_nodup {l : List String} (v : String) (h : l.Nodup) :
    (setAdd l v).Nodup := by
  unfold setAdd
  split
  · exact h
  · rename_i hc
    have hv : v ∉ l := by simpa using hc
    simp [List.nodup_append, h, hv]

/-- Helper: one `add` call leaves `uniqueValues` unchanged, clears it,
or inserts the observed value. -/
theorem add_uniqueValues_cases (x : ColumnMetadata) (v : String)
    (mc : Nat) :
    (x.add v mc).uniqueValues = x.uniqueValues ∨
    (x.add v mc).uniqueValues = [] ∨
    (x.add v mc).uniqueValues = setAdd x.uniqueValues v := by
  rw [add_eq]
  by_cases h2 : x.unbounded = true
  · simp [h2]
  · simp only [h2]
    split
    · simp
    · split <;> simp

/-- Helper: `add` keeps `uniqueValues` duplicate-free. -/
theorem add_uniqueValues_nodup (x : ColumnMetadata) (v : String) (mc : Nat)
    (h : x.uniqueValues.Nodup) : ((x.add v mc).uniqueValues).Nodup := by
  rcases add_uniqueValues_cases x v mc with hc | hc | hc <;> rw [hc]
  · exact h
  · simp
  · exact setAdd_nodup v h

/-- Helper: every column reachable by the constructor and `add` calls
has a duplicate-free `uniqueValues` list. -/
theorem applyAdds_uniqueValues_nodup (name : String)
    (ops : List (String × Nat)) :
    ((applyAdds (ColumnMetadata.init name) ops).uniqueValues).Nodup := by
  suffices h : ∀ (x : ColumnMetadata), x.uniqueValues.Nodup →
      ((applyAdds x ops).uniqueValues).Nodup by
    exact h _ (by simp [ColumnMetadata.init])
  induction ops with
  | nil => intro x hx; exact hx
  | cons p rest ih =>
    intro x hx
    exact ih _ (add_uniqueValues_nodup x p.1 p.2 hx)

/-- Helper: rebuilding a JS `Set` from a duplicate-free element list
reproduces the list. -/
theorem foldl_setAdd_eq (l acc : List String) (h : (acc ++ l).Nodup) :
    l.foldl setAdd acc = acc ++ l := by
  induction l generalizing acc with
  | nil => simp
  | cons v rest ih =>
    have hv : v ∉ acc := by
      intro hm
      exact (List.disjoint_of_nodup_append h) hm (by simp)
    have hstep : setAdd acc v = acc ++ [v] := by
      unfold setAdd
      simp [hv]
    have hnd : ((acc ++ [v]) ++ rest).Nodup := by
      simpa [List.append_assoc] using h
    simp only [List.foldl_cons, hstep, ih (acc ++ [v]) hnd,
      List.append_assoc, List.singleton_append]

/-- Helper: extracting the strings back out of a serialized string
array always succeeds with the original list. -/
theorem asStrListGo_map_str (l : List String) :
    asStrListGo (l.map Json.str) = some l := by
  induction l with
  | nil => rfl
  | cons s rest ih => simp [asStrListGo, ih]

/-- Helper: deserializing a serialized column succeeds and rebuilds the
value set from the spread array. -/
theorem fromJson_toJSON (x : ColumnMetadata) :
    ColumnMetadata.fromJson x.toJSON =
      Except.ok ⟨x.maxLength, x.name, x.unbounded,
        x.uniqueValues.foldl setAdd []⟩ := by
  simp [ColumnMetadata.fromJson, ColumnMetadata.toJSON, jsLookup,
    List.find?, asNum, asStr, asBool, asStrList, asStrListGo_map_str]

/-- C5: for every column reachable via the constructor and `add`,
`fromJson(toJSON(x))` succeeds with a value observably equal to `x`
(same `maxLength`, `name`, `unbounded`, `uniqueValues`), whose derived
`cardinality` is `null` when unbounded and the value-set size
otherwise. -/
theorem columnMetadata_roundtrip (name : String)
    (ops : List (String × Nat)) :
    ColumnMetadata.fromJson (applyAdds (ColumnMetadata.init name)
        ops).toJSON =
      Except.ok (applyAdds (ColumnMetadata.init name) ops) ∧
    (applyAdds (ColumnMetadata.init name) ops).cardinality =
      (if (applyAdds (ColumnMetadata.init name) ops).unbounded then none
       else some (applyAdds (ColumnMetadata.init name)
         ops).uniqueValues.length) := by
  constructor
  · have hnd := applyAdds_uniqueValues_nodup name ops
    rw [fromJson_toJSON, foldl_setAdd_eq _ [] (by simpa using hnd)]
    simp
  · simp [ColumnMetadata.cardinality]

/-- C6: deserialization rejects with an error naming exactly the first
missing-or-wrong-typed field in the order `maxLength`, `name`,
`unbounded`, `uniqueValues`; succeeds whenever all four fields are
well-typed; and never consults the `cardinality` property. -/
theorem fromJson_first_bad_field (o : List (String × Json)) :
    (∀ f, firstBadField o = some f →
      ColumnMetadata.fromJson o =
        Except.error (missingOrInvalidField f)) ∧
    (firstBadField o = none →
      ∃ c, ColumnMetadata.fromJson o = Except.ok c) ∧
    (∀ j, ColumnMetadata.fromJson (("cardinality", j) :: o) =
      ColumnMetadata.fromJson o) := by
  refine ⟨?_, ?_, ?_⟩
  · intro f hf
    unfold firstBadField at hf
    unfold ColumnMetadata.fromJson
    rcases h1 : asNum (jsLookup o "maxLength") with _ | n
    · simp [h1] at hf
      simp [hf.symm]
    · rcases h2 : asStr (jsLookup o "name") with _ | nm
      · simp [h1, h2] at hf
        simp [hf.symm]
      · rcases h3 : asBool (jsLookup o "unbounded") with _ | ub
        · simp [h1, h2, h3] at hf
          simp [hf.symm]
        · rcases h4 : asStrList (jsLookup o "uniqueValues") with _ | uv
          · simp [h1, h2, h3, h4] at hf
            simp [hf.symm]
          · simp [h1, h2, h3, h4] at hf
  · intro hf
    unfold firstBadField at hf
    rcases h1 : asNum (jsLookup o "maxLength") with _ | n
    · simp [h1] at hf
    · rcases h2 : asStr (jsLookup o "name") with _ | nm
      · simp [h1, h2] at hf
      · rcases h3 : asBool (jsLookup o "unbounded") with _ | ub
        · simp [h1, h2, h3] at hf
        · rcases h4 : asStrList (jsLookup o "uniqueValues") with _ | uv
          · simp [h1, h2, h3, h4] at hf
          · refine ⟨⟨n, nm, ub, uv.foldl setAdd []⟩, ?_⟩
            unfold ColumnMetadata.fromJson
            rw [h1, h2, h3, h4]
  · intro j
    have hk : ∀ k, k ≠ "cardinality" →
        jsLookup (("cardinality", j) :: o) k = jsLookup o k := by
      intro k hkne
      have hb : ("cardinality" == k) = false := by
        simpa using Ne.symm hkne
      simp [jsLookup, List.find?, hb]
    unfold ColumnMetadata.fromJson
    rw [hk "maxLength" (by decide), hk "name" (by decide),
      hk "unbounded" (by decide), hk "uniqueValues" (by decide)]

/-- Witness for C6: an object with only a well-typed `name` fails
naming `maxLength`; a fully well-typed object (with a junk
`cardinality`) deserializes. -/
theorem fromJson_first_bad_field_witness :
    ColumnMetadata.fromJson [("name", Json.str "col")] =
      Except.error "Missing or invalid type for field: maxLength." ∧
    (∃ c, ColumnMetadata.fromJson
      [("cardinality", Json.str "junk"), ("maxLength", Json.num 6),
       ("name", Json.str "col"), ("unbounded", Json.bool false),
       ("uniqueValues", Json.arr [Json.str "value1"])] =
      Except.ok c) := by
  constructor
  · exact (fromJson_first_bad_field [("name", Json.str "col")]).1
      "maxLength" (by rfl)
  · exact (fromJson_first_bad_field _).2.1 (by rfl)

/-- Helper: once unbounded, one `add` call keeps the latch set and the
value set untouched. -/
theorem add_unbounded_latch (x : ColumnMetadata) (v : String) (mc : Nat)
    (h : x.unbounded = true) :
    (x.add v mc).unbounded = true ∧
    (x.add v mc).uniqueValues = x.uniqueValues := by
  rw [add_eq]
  simp [h]

/-- Helper: `add` always raises `maxLength` to the longest observed
value length. -/
theorem add_maxLength (x : ColumnMetadata) (v : String) (mc : Nat) :
    (x.add v mc).maxLength = max x.maxLength (v.length : Int) := by
  rw [add_eq]
  by_cases h1 : x.maxLength < (v.length : Int) <;>
    by_cases h2 : x.unbounded = true <;>
      simp [h1, h2, apply_ite] <;> omega

/-- C7: the bounded-to-unbounded transition is a one-way latch. Over any
further sequence of `add` calls an unbounded column stays unbounded with
its (cleared) value set untouched; a bounded column flips exactly at the
call where the distinct-value count first exceeds `maxCardinality`, at
which moment `uniqueValues` is cleared; and `maxLength` keeps tracking
the longest observed value. -/
theorem columnMetadata_add_latch (x : ColumnMetadata) (v : String)
    (mc : Nat) (ops : List (String × Nat)) :
    (x.unbounded = true → (applyAdds x ops).unbounded = true ∧
      (applyAdds x ops).uniqueValues = x.uniqueValues) ∧
    (x.unbounded = false →
      ((x.add v mc).unbounded = true ↔
        (setAdd x.uniqueValues v).length > mc)) ∧
    (x.unbounded = false → (x.add v mc).unbounded = true →
      (x.add v mc).uniqueValues = []) ∧
    (x.add v mc).maxLength = max x.maxLength (v.length : Int) := by
  refine ⟨?_, ?_, ?_, add_maxLength x v mc⟩
  · intro h
    induction ops generalizing x with
    | nil => exact ⟨h, rfl⟩
    | cons p rest ih =>
      have hstep := add_unbounded_latch x p.1 p.2 h
      have := ih (x.add p.1 p.2) hstep.1
      exact ⟨this.1, this.2.trans hstep.2⟩
  · intro h
    rw [add_eq]
    simp only [h, Bool.false_eq_true, if_false]
    split
    · rename_i hgt
      simpa using hgt
    · rename_i hgt
      simpa using hgt
  · intro h hu
    rw [add_eq] at hu ⊢
    by_cases hgt : (setAdd x.uniqueValues v).length > mc
    · simp [h, hgt]
    · simp [h, hgt] at hu

/-- Witness for C7: an unbounded column stays unbounded with its value
set untouched across an `add`, and a fresh column flips to unbounded
and clears its set at the call exceeding the ceiling. -/
theorem columnMetadata_add_latch_witness :
    ((applyAdds ⟨1, "c", true, ["z"]⟩ [("aa", 0)]).unbounded = true ∧
      (applyAdds ⟨1, "c", true, ["z"]⟩ [("aa", 0)]).uniqueValues = ["z"]) ∧
    ((ColumnMetadata.init "d").add "w" 0).unbounded = true ∧
    ((ColumnMetadata.init "d").add "w" 0).uniqueValues = [] := by
  refine ⟨(columnMetadata_add_latch ⟨1, "c", true, ["z"]⟩ "aa" 0
    [("aa", 0)]).1 rfl, ?_, ?_⟩
  · exact ((columnMetadata_add_latch (ColumnMetadata.init "d") "w" 0
      []).2.1 rfl).mpr (by decide)
  · exact (columnMetadata_add_latch (ColumnMetadata.init "d") "w" 0
      []).2.2.1 rfl (by decide)

/-- Helper: the anchor loop over a concatenation runs the first part and
continues from its state. -/
theorem goAnchors_append (sep : String) (cols : List String)
    (as₁ as₂ : List AnchorColumn) (ci : Nat) (res : List (Option String)) :
    goAnchors sep cols (as₁ ++ as₂) ci res =
      (match goAnchors sep cols as₁ ci res with
      | none => none
      | some (ci', res') => goAnchors sep cols as₂ ci' res') := by
  induction as₁ generalizing ci res with
  | nil => simp [goAnchors]
  | cons a rest ih =>
    simp only [List.cons_append, goAnchors]
    cases applyAnchor sep cols a ci res with
    | none => rfl
    | some st =>
      cases st with
      | mk ci' res' => simp [ih]

/-- C9: whenever the alignment loop reaches a bounded anchor whose
`previousColumns` is 0 and whose scan skips at least one noise field,
the whole alignment attempt returns `null`: no resolved row is produced
from that attempt. -/
theorem tryParseColumns_noise_without_slot_fails
    (cs : List ColumnMetadata) (sep : String) (cols : List String)
    (as₁ as₂ : List AnchorColumn) (m : ColumnMetadata)
    (ci : Nat) (res : List (Option String)) (e : Nat)
    (hsplit : getAnchorColumns cs = as₁ ++ ⟨0, some m⟩ :: as₂)
    (hreach : goAnchors sep cols as₁ 0 [] = some (ci, res))
    (hscan : scanRem m (cols.drop ci) = some e)
    (he : 0 < e) :
    tryParseColumns ⟨cs⟩ sep cols = none := by
  unfold tryParseColumns
  split
  · rfl
  · have hanch : FileMetadata.anchorColumns ⟨cs⟩ =
        as₁ ++ ⟨0, some m⟩ :: as₂ := hsplit
    rw [hanch, goAnchors_append, hreach]
    have hstep : applyAnchor sep cols ⟨0, some m⟩ ci res = none := by
      unfold applyAnchor
      split
      · rfl
      · simp only [Nat.add_zero, List.take_zero, List.map_nil,
          List.append_nil, hscan]
        simp [he]
    simp only [goAnchors, hstep]

/-- Witness for C9 at a concrete input: with columns `[{b1}, {b2}, u]`
the first anchor has no previous column, and the merged fields
`["z", "b1", "b2"]` make its scan skip the noise field `"z"`, so the
attempt fails. -/
theorem tryParseColumns_noise_without_slot_fails_witness :
    tryParseColumns exMetaBBU " " ["z", "b1", "b2"] = none := by
  exact tryParseColumns_noise_without_slot_fails exMetaBBU.columns " "
    ["z", "b1", "b2"] [] [⟨0, some ⟨0, "c2", false, ["b2"]⟩⟩, ⟨1, none⟩]
    ⟨0, "c1", false, ["b1"]⟩ 0 [] 1 (by rfl) (by rfl) (by rfl)
    (by decide)

/-- Helper: every anchor the deriver produces either carries a bounded
column or, when metadata-free (the invisible final anchor), has at least
one previous column. -/
theorem anchorsGo_good (cs : List ColumnMetadata) :
    ∀ (run : Nat) (a : AnchorColumn), a ∈ anchorsGo run cs →
      (∀ m, a.metadata = some m → m.unbounded = false) ∧
      (a.metadata = none → 1 ≤ a.previousColumns) := by
  induction cs with
  | nil =>
    intro run a ha
    simp [anchorsGo] at ha
  | cons c rest ih =>
    intro run a ha
    by_cases hc : c.unbounded = true
    · cases rest with
      | nil =>
        simp only [anchorsGo, hc, if_true, List.mem_singleton] at ha
        subst ha
        exact ⟨fun m hm => by simp at hm,
          fun _ => Nat.succ_le_succ (Nat.zero_le run)⟩
      | cons r rs =>
        have heq : anchorsGo run (c :: r :: rs) =
            anchorsGo (run + 1) (r :: rs) := by
          simp only [anchorsGo, hc, if_true]
        rw [heq] at ha
        exact ih (run + 1) a ha
    · have hc' : c.unbounded = false := by simpa using hc
      simp only [anchorsGo, hc', Bool.false_eq_true, if_false,
        List.mem_cons] at ha
      rcases ha with ha | ha
      · subst ha
        refine ⟨fun m hm => ?_, fun hnone => by simp at hnone⟩
        have : c = m := by simpa using hm
        rw [← this]
        exact hc'
      · exact ih 0 a ha

/-- Helper: only the final anchor the deriver produces can be
metadata-free. -/
theorem anchorsGo_dropLast_isSome (cs : List ColumnMetadata) :
    ∀ run, ∀ a ∈ (anchorsGo run cs).dropLast, a.metadata.isSome = true := by
  induction cs with
  | nil =>
    intro run a ha
    simp [anchorsGo] at ha
  | cons c rest ih =>
    intro run a ha
    by_cases hc : c.unbounded = true
    · cases rest with
      | nil =>
        simp [anchorsGo, hc] at ha
      | cons r rs =>
        have heq : anchorsGo run (c :: r :: rs) =
            anchorsGo (run + 1) (r :: rs) := by
          simp only [anchorsGo, hc, if_true]
        rw [heq] at ha
        exact ih (run + 1) a ha
    · have hc' : c.unbounded = false := by simpa using hc
      simp only [anchorsGo, hc', Bool.false_eq_true, if_false] at ha
      cases hrest : anchorsGo 0 rest with
      | nil =>
        rw [hrest] at ha
        simp at ha
      | cons b bs =>
        rw [hrest, List.dropLast_cons₂, List.mem_cons] at ha
        rcases ha with ha | ha
        · subst ha
          rfl
        · refine ih 0 a ?_
          rw [hrest]
          exact ha

/-- Helper: for a nonempty column list, the summed `previousColumns` of
the derived anchors plus the number of metadata-carrying anchors equals
the accumulated run plus the column count. -/
theorem anchorsGo_prev_sum (cs : List ColumnMetadata) :
    ∀ run, cs ≠ [] →
      ((anchorsGo run cs).map (·.previousColumns)).sum +
        ((anchorsGo run cs).filter (fun a => a.metadata.isSome)).length =
      run + cs.length := by
  induction cs with
  | nil =>
    intro run h
    exact absurd rfl h
  | cons c rest ih =>
    intro run _
    by_cases hc : c.unbounded = true
    · cases rest with
      | nil => simp [anchorsGo, hc]
      | cons r rs =>
        have heq : anchorsGo run (c :: r :: rs) =
            anchorsGo (run + 1) (r :: rs) := by
          simp only [anchorsGo, hc, if_true]
        rw [heq, ih (run + 1) (by simp)]
        simp only [List.length_cons]
        omega
    · have hc' : c.unbounded = false := by simpa using hc
      have heq : anchorsGo run (c :: rest) =
          ⟨run, some c⟩ :: anchorsGo 0 rest := by
        simp only [anchorsGo, hc', Bool.false_eq_true, if_false]
      rcases eq_or_ne rest [] with hr | hr
      · subst hr
        simp [heq, anchorsGo, hc']
      · have hrec := ih 0 hr
        rw [heq]
        simp only [List.map_cons, List.sum_cons, List.filter_cons,
          Option.isSome_some, if_true, List.length_cons]
        omega

/-- Helper: for a bounded column the scan's unbounded short-circuit is
dead, so the scan agrees with its strict variant. -/
theorem scanRem_eq_strict (m : ColumnMetadata) (h : m.unbounded = false) :
    ∀ rem : List String, scanRem m rem = scanRemStrict m rem := by
  intro rem
  induction rem with
  | nil => simp [scanRem, scanRemStrict, h]
  | cons v rest ih =>
    simp only [scanRem, scanRemStrict, h, Bool.false_eq_true, if_false,
      ih]

/-- Helper: on an anchor whose metadata (if any) is bounded, anchor
processing agrees with the strict variant. -/
theorem applyAnchor_eq_strict (sep : String) (cols : List String)
    (a : AnchorColumn) (ci : Nat) (res : List (Option String))
    (hgood : ∀ m, a.metadata = some m → m.unbounded = false) :
    applyAnchor sep cols a ci res = applyAnchorStrict sep cols a ci res := by
  unfold applyAnchor applyAnchorStrict
  cases hm : a.metadata with
  | none => rfl
  | some m => simp only [hm, scanRem_eq_strict m (hgood m hm)]

/-- Helper: the anchor loop agrees with the strict variant on anchor
lists whose metadata entries are all bounded. -/
theorem goAnchors_eq_strict (sep : String) (cols : List String)
    (as : List AnchorColumn)
    (hgood : ∀ a ∈ as, ∀ m, a.metadata = some m → m.unbounded = false) :
    ∀ ci res, goAnchors sep cols as ci res =
      goAnchorsStrict sep cols as ci res := by
  induction as with
  | nil => intro ci res; rfl
  | cons a rest ih =>
    intro ci res
    have ha := hgood a (by simp)
    have hrest := fun b hb => hgood b (List.mem_cons_of_mem _ hb)
    simp only [goAnchors, goAnchorsStrict,
      applyAnchor_eq_strict sep cols a ci res ha]
    cases applyAnchorStrict sep cols a ci res with
    | none => rfl
    | some st =>
      cases st with
      | mk ci' res' => exact ih hrest ci' res'

/-- C10: invariants of the derived anchor list: (a) every
metadata-carrying anchor carries a bounded column, (b) only the final
anchor can lack metadata, (c) the `previousColumns` total plus the
number of metadata-carrying anchors equals the column count, and
consequently (d) alignment behaves as if the scan's accept-without-scan
branch for unbounded metadata were absent. -/
theorem getAnchorColumns_parser_invariants (cs : List ColumnMetadata) :
    (∀ a ∈ getAnchorColumns cs, ∀ m, a.metadata = some m →
      m.unbounded = false) ∧
    (∀ a ∈ (getAnchorColumns cs).dropLast, a.metadata.isSome = true) ∧
    ((getAnchorColumns cs).map (·.previousColumns)).sum +
      ((getAnchorColumns cs).filter
        (fun a => a.metadata.isSome)).length = cs.length ∧
    (∀ sep cols, tryParseColumns ⟨cs⟩ sep cols =
      tryParseColumnsStrict ⟨cs⟩ sep cols) := by
  refine ⟨fun a ha => (anchorsGo_good cs 0 a ha).1,
    anchorsGo_dropLast_isSome cs 0, ?_, ?_⟩
  · rcases eq_or_ne cs [] with hr | hr
    · subst hr
      rfl
    · simpa using anchorsGo_prev_sum cs 0 hr
  · intro sep cols
    unfold tryParseColumns tryParseColumnsStrict
    rw [goAnchors_eq_strict sep cols (FileMetadata.anchorColumns ⟨cs⟩)
      (fun a ha => (anchorsGo_good cs 0 a ha).1)]

/-- Witness for C10 at a concrete mixed column list. -/
theorem getAnchorColumns_parser_invariants_witness :
    (∀ m, (⟨1, some ⟨0, "a", false, ["a"]⟩⟩ : AnchorColumn).metadata =
      some m → m.unbounded = false) ∧
    ((getAnchorColumns exMetaUAB.columns).map
      (·.previousColumns)).sum +
      ((getAnchorColumns exMetaUAB.columns).filter
        (fun a => a.metadata.isSome)).length = 3 := by
  constructor
  · exact (getAnchorColumns_parser_invariants exMetaUAB.columns).1
      ⟨1, some ⟨0, "a", false, ["a"]⟩⟩ (by decide)
  · exact (getAnchorColumns_parser_invariants exMetaUAB.columns).2.2.1

/-- C4: every call to `parse` that returns non-null columns leaves the
pending buffer empty; and when the line aligns on the first
self-contained attempt, the output is exactly the resolved columns with
the previously pending lines returned verbatim, the only state change
being the cleared buffer. -/
theorem parse_success_clears_pending (delim : String) (md : FileMetadata)
    (sep : String) (st : List String) (line : String) :
    (∀ c, (parse delim md sep st line).1.columns = some c →
      (parse delim md sep st line).2 = []) ∧
    (∀ c, tryParseColumns md sep (jsSplit line delim) = some c →
      parse delim md sep st line = (⟨some c, st⟩, [])) := by
  constructor
  · intro c hc
    unfold parse at hc ⊢
    cases h1 : tryParseColumns md sep (jsSplit line delim) with
    | some cols => simp [h1]
    | none =>
      simp only [h1] at hc ⊢
      by_cases hlen : 1 < (st ++ [line]).length
      · simp only [hlen, if_true] at hc ⊢
        cases h2 : mergeLoop delim md sep [] (st ++ [line]) with
        | none => simp [h2] at hc
        | some p =>
          cases p with
          | mk cols skipped => simp [h2]
      · have hst : ¬0 < st.length := by
          simp only [List.length_append, List.length_cons,
            List.length_nil] at hlen
          omega
        simp [hst] at hc
  · intro c hc
    unfold parse
    simp [hc]

/-- Witness for C4 at a first-attempt success with pending lines: the
pending lines come back verbatim and the buffer is cleared. -/
theorem parse_success_clears_pending_witness :
    parse "|" exMetaBBU " " ["junk1", "junk2"] "b1|b2|x" =
      (⟨some [some "b1", some "b2", some "x"], ["junk1", "junk2"]⟩,
        []) := by
  exact (parse_success_clears_pending "|" exMetaBBU " "
    ["junk1", "junk2"] "b1|b2|x").2 [some "b1", some "b2", some "x"]
    (by rfl)

/-- Helper: when every skip count fails, the retry loop returns
nothing. -/
theorem mergeLoop_none (delim : String) (md : FileMetadata)
    (sep : String) :
    ∀ (rest skipped : List String),
      (∀ k, k < rest.length → tryParseColumns md sep
        ((rest.drop k).flatMap (jsSplit · delim)) = none) →
      mergeLoop delim md sep skipped rest = none := by
  intro rest
  induction rest with
  | nil => intro skipped _; rfl
  | cons l ls ih =>
    intro skipped h
    have h0 := h 0 (Nat.succ_pos _)
    rw [List.drop_zero] at h0
    unfold mergeLoop
    rw [h0]
    exact ih (skipped ++ [l]) (fun k hk => by
      have := h (k + 1) (Nat.succ_lt_succ hk)
      simpa [List.drop_succ_cons] using this)

/-- Helper: the retry loop returns the attempt of the smallest
successful skip count, with the skipped lines appended to the
accumulator in order. -/
theorem mergeLoop_first (delim : String) (md : FileMetadata)
    (sep : String) :
    ∀ (rest skipped : List String) (k : Nat) (c : List (Option String)),
      k < rest.length →
      (∀ j, j < k → tryParseColumns md sep
        ((rest.drop j).flatMap (jsSplit · delim)) = none) →
      tryParseColumns md sep
        ((rest.drop k).flatMap (jsSplit · delim)) = some c →
      mergeLoop delim md sep skipped rest =
        some (c, skipped ++ rest.take k) := by
  intro rest
  induction rest with
  | nil =>
    intro skipped k c hk _ _
    exact absurd hk (Nat.not_lt_zero k)
  | cons l ls ih =>
    intro skipped k c hk hbefore hsucc
    cases k with
    | zero =>
      rw [List.drop_zero] at hsucc
      unfold mergeLoop
      rw [hsucc]
      simp
    | succ k' =>
      have h0 := hbefore 0 (Nat.succ_pos _)
      rw [List.drop_zero] at h0
      unfold mergeLoop
      rw [h0]
      have hrec := ih (skipped ++ [l]) k' c
        (Nat.lt_of_succ_lt_succ hk)
        (fun j hj => by
          have := hbefore (j + 1) (Nat.succ_lt_succ hj)
          simpa [List.drop_succ_cons] using this)
        (by simpa [List.drop_succ_cons] using hsucc)
      rw [hrec]
      simp [List.append_assoc]

/-- C2: when the new line fails on its own and the pending buffer
(after appending it) holds at least two lines, `parse` tries skip
counts in increasing order over the concatenated split fields of the
kept lines: the first success returns its columns with the skipped
older lines as `unprocessedLines` and clears the buffer; if every skip
count fails, it returns null columns, no unprocessed lines, and keeps
the whole buffer. -/
theorem parse_retry_loop (delim : String) (md : FileMetadata)
    (sep : String) (st : List String) (line : String)
    (hself : tryParseColumns md sep (jsSplit line delim) = none)
    (hlen : 2 ≤ (st ++ [line]).length) :
    (∀ k c, k < (st ++ [line]).length →
      (∀ j, j < k → tryParseColumns md sep
        (((st ++ [line]).drop j).flatMap (jsSplit · delim)) = none) →
      tryParseColumns md sep
        (((st ++ [line]).drop k).flatMap (jsSplit · delim)) = some c →
      parse delim md sep st line =
        (⟨some c, (st ++ [line]).take k⟩, [])) ∧
    ((∀ k, k < (st ++ [line]).length → tryParseColumns md sep
        (((st ++ [line]).drop k).flatMap (jsSplit · delim)) = none) →
      parse delim md sep st line = (⟨none, []⟩, st ++ [line])) := by
  have hgt : 1 < (st ++ [line]).length := hlen
  constructor
  · intro k c hk hbefore hsucc
    unfold parse
    simp only [hself, hgt, if_true]
    rw [mergeLoop_first delim md sep (st ++ [line]) [] k c hk hbefore
      hsucc]
    simp
  · intro hall
    unfold parse
    simp only [hself, hgt, if_true]
    rw [mergeLoop_none delim md sep (st ++ [line]) [] hall]

/-- Witness for C2 on both outcomes: with columns `[{b1}, {b2}, u]`,
four pending lines resolve at skip count 2 returning the two oldest
lines unprocessed; and a two-line buffer where every skip count fails
keeps the buffer with a null result. -/
theorem parse_retry_loop_witness :
    parse "|" exMetaBBU " " ["v1|v2", "b1|v3", "b1|b2"] "v4|v5" =
      (⟨some [some "b1", some "b2", some "v4 v5"],
        ["v1|v2", "b1|v3"]⟩, []) ∧
    parse "|" exMetaBBU " " ["z"] "b1|b2" =
      (⟨none, []⟩, ["z", "b1|b2"]) := by
  constructor
  · exact (parse_retry_loop "|" exMetaBBU " " ["v1|v2", "b1|v3", "b1|b2"]
      "v4|v5" (by rfl) (by decide)).1 2
      [some "b1", some "b2", some "v4 v5"] (by decide) (by decide)
      (by rfl)
  · exact (parse_retry_loop "|" exMetaBBU " " ["z"] "b1|b2" (by rfl)
      (by decide)).2 (by decide)

/-- Helper: the instrumented scan computes the same result as the
scan. -/
theorem scanRemAcc_fst (m : ColumnMetadata) :
    ∀ rem : List String, (scanRemAcc m rem).1 = scanRem m rem := by
  intro rem
  induction rem with
  | nil =>
    by_cases h1 : m.unbounded = true <;> simp [scanRemAcc, scanRem, h1]
  | cons v rest ih =>
    unfold scanRemAcc scanRem
    by_cases h1 : m.unbounded = true
    · simp [h1]
    · by_cases h2 : v ∈ m.uniqueValues
      · simp [h1, h2]
      · cases rest with
        | nil => simp [h1, h2]
        | cons r rs => simp [h1, h2, ih]

/-- Helper: instrumented anchor processing computes the same result as
anchor processing. -/
theorem applyAnchorAcc_fst (sep : String) (cols : List String)
    (a : AnchorColumn) (ci : Nat) (res : List (Option String)) :
    (applyAnchorAcc sep cols a ci res).1 = applyAnchor sep cols a ci res := by
  unfold applyAnchorAcc applyAnchor
  by_cases hg : ci + a.previousColumns > cols.length
  · simp [hg]
  · simp only [hg, if_false]
    cases hm : a.metadata with
    | none => rfl
    | some m =>
      simp only [scanRemAcc_fst]
      cases hs : scanRem m (cols.drop (ci + a.previousColumns)) with
      | none => rfl
      | some extra =>
        by_cases hc : 0 < extra ∧ a.previousColumns = 0 <;> simp [hc]

/-- Helper: the instrumented anchor loop computes the same result as the
anchor loop. -/
theorem goAnchorsAcc_fst (sep : String) (cols : List String) :
    ∀ (as : List AnchorColumn) (ci : Nat) (res : List (Option String)),
      (goAnchorsAcc sep cols as ci res).1 = goAnchors sep cols as ci res := by
  intro as
  induction as with
  | nil => intro ci res; rfl
  | cons a rest ih =>
    intro ci res
    simp only [goAnchorsAcc, goAnchors, ← applyAnchorAcc_fst sep cols a ci
      res]
    cases happly : applyAnchorAcc sep cols a ci res with
    | mk r f =>
      cases r with
      | none => rfl
      | some st =>
        cases st with
        | mk ci' res' => simp [ih]

/-- Helper: the instrumented alignment computes the same result as the
alignment. -/
theorem tryParseColumnsAcc_fst (md : FileMetadata) (sep : String)
    (cols : List String) :
    (tryParseColumnsAcc md sep cols).1 = tryParseColumns md sep cols := by
  unfold tryParseColumnsAcc tryParseColumns
  by_cases hlen : cols.length < md.columns.length
  · simp [hlen]
  · simp only [hlen, if_false, ← goAnchorsAcc_fst sep cols
      md.anchorColumns 0 []]
    cases hgo : goAnchorsAcc sep cols md.anchorColumns 0 [] with
    | mk r f =>
      cases r with
      | none => rfl
      | some st =>
        cases st with
        | mk ci res => simp

/-- Helper: the instrumented retry loop computes the same result as the
retry loop. -/
theorem mergeLoopAcc_fst (delim : String) (md : FileMetadata)
    (sep : String) :
    ∀ (rest skipped : List String),
      (mergeLoopAcc delim md sep skipped rest).1 =
        mergeLoop delim md sep skipped rest := by
  intro rest
  induction rest with
  | nil => intro skipped; rfl
  | cons l ls ih =>
    intro skipped
    simp only [mergeLoopAcc, mergeLoop, ← tryParseColumnsAcc_fst md sep
      ((l :: ls).flatMap (jsSplit · delim))]
    cases htry : tryParseColumnsAcc md sep
        ((l :: ls).flatMap (jsSplit · delim)) with
    | mk r f =>
      cases r with
      | none => simp [ih]
      | some c => rfl

/-- Helper: every index probed by the scan is at most the length of the
remaining fields (the only possibly out-of-range probe is the first one,
on an empty remainder). -/
theorem scanRemAcc_probes_le (m : ColumnMetadata) :
    ∀ rem : List String, ∀ p ∈ (scanRemAcc m rem).2, p ≤ rem.length := by
  intro rem
  induction rem with
  | nil =>
    intro p hp
    by_cases h1 : m.unbounded = true <;> simp [scanRemAcc, h1] at hp
    simp [hp]
  | cons v rest ih =>
    intro p hp
    unfold scanRemAcc at hp
    by_cases h1 : m.unbounded = true
    · simp [h1] at hp
    · by_cases h2 : v ∈ m.uniqueValues
      · simp [h1, h2] at hp
        omega
      · cases rest with
        | nil =>
          simp [h1, h2] at hp
          omega
        | cons r rs =>
          simp [h1, h2] at hp
          rcases hp with hp | ⟨q, hq, hpq⟩
          · simp [hp]
          · have := ih q hq
            simp only [List.length_cons] at this ⊢
            omega

/-- Helper: a successful scan for a bounded column found an in-range
match. -/
theorem scanRem_some_lt (m : ColumnMetadata) (h : m.unbounded = false) :
    ∀ (rem : List String) (e : Nat), scanRem m rem = some e →
      e < rem.length := by
  intro rem
  induction rem with
  | nil =>
    intro e he
    simp [scanRem, h] at he
  | cons v rest ih =>
    intro e he
    unfold scanRem at he
    by_cases h2 : v ∈ m.uniqueValues
    · simp [h, h2] at he
      simp [← he]
    · cases rest with
      | nil => simp [h, h2] at he
      | cons r rs =>
        simp [h, h2, Option.map_eq_some'] at he
        obtain ⟨q, hq, hqe⟩ := he
        have := ih q hq
        simp only [List.length_cons] at this ⊢
        omega

/-- Helper: the output after copying at least one previous column is
nonempty. -/
theorem res1_ne_nil (cols : List String) (ci prev : Nat)
    (res : List (Option String)) (hp : 1 ≤ prev)
    (hg : ci + prev ≤ cols.length) :
    res ++ ((cols.drop ci).take prev).map some ≠ [] := by
  intro hcontra
  have hlen := congrArg List.length hcontra
  simp only [List.length_append, List.length_map, List.length_take,
    List.length_drop, List.length_nil] at hlen
  omega

/-- Helper: with the cursor within bounds and a well-formed anchor
(bounded metadata, or an invisible anchor with at least one previous
column), every recorded access of one anchor step except the scan's
membership probes and the anchor-value write is in bounds, the probes
stay within one position past the end, and the cursor stays within
bounds. -/
theorem applyAnchorAcc_ok (sep : String) (cols : List String)
    (a : AnchorColumn) (ci : Nat) (res : List (Option String))
    (hbound : ∀ m, a.metadata = some m → m.unbounded = false)
    (hinv : a.metadata = none → 1 ≤ a.previousColumns) :
    ((applyAnchorAcc sep cols a ci res).2.readsOk = true ∧
     (applyAnchorAcc sep cols a ci res).2.probesNear = true ∧
     (applyAnchorAcc sep cols a ci res).2.lastOk = true) ∧
    (∀ ci' res', (applyAnchorAcc sep cols a ci res).1 = some (ci', res') →
      ci' ≤ cols.length) := by
  unfold applyAnchorAcc
  by_cases hg : ci + a.previousColumns > cols.length
  · simp [hg, AccFlags.allOk]
  · have hg' : ci + a.previousColumns ≤ cols.length := Nat.le_of_not_lt hg
    have hprev : ((List.range a.previousColumns).all
        (fun i => decide (ci + i < cols.length))) = true := by
      simp only [List.all_eq_true, List.mem_range, decide_eq_true_eq]
      intro i hi
      omega
    simp only [hg, if_false]
    cases hm : a.metadata with
    | none =>
      have hp := hinv hm
      have hne := res1_ne_nil cols ci a.previousColumns res hp hg'
      have hd : decide ((res ++ ((cols.drop ci).take
          a.previousColumns).map some) ≠ []) = true := decide_eq_true hne
      refine ⟨⟨?_, ?_, ?_⟩, ?_⟩
      · exact hprev
      · rfl
      · rw [hd, Bool.or_true]
      · intro ci' res' hout
        simp only [Option.some.injEq, Prod.mk.injEq] at hout
        omega
    | some m =>
      have hbm : m.unbounded = false := hbound m hm
      have hpnear : (((scanRemAcc m
          (cols.drop (ci + a.previousColumns))).2).all
          (fun p => decide (ci + a.previousColumns + p ≤
            cols.length))) = true := by
        simp only [List.all_eq_true, decide_eq_true_eq]
        intro p hp
        have := scanRemAcc_probes_le m
          (cols.drop (ci + a.previousColumns)) p hp
        simp only [List.length_drop] at this
        omega
      cases hs : (scanRemAcc m (cols.drop (ci + a.previousColumns))).1 with
      | none =>
        simp only [hs]
        refine ⟨⟨?_, ?_, ?_⟩, ?_⟩
        · exact hprev
        · exact hpnear
        · trivial
        · intro ci' res' hout
          simp at hout
      | some extra =>
        have hlt : ci + a.previousColumns + extra < cols.length := by
          have := scanRem_some_lt m hbm
            (cols.drop (ci + a.previousColumns)) extra
            (by rw [← scanRemAcc_fst]; exact hs)
          simp only [List.length_drop] at this
          omega
        simp only [hs]
        by_cases hcond : 0 < extra ∧ a.previousColumns = 0
        · rw [if_pos hcond]
          refine ⟨⟨?_, ?_, ?_⟩, ?_⟩
          · exact hprev
          · exact hpnear
          · trivial
          · intro ci' res' hout
            simp at hout
        · rw [if_neg hcond]
          have hreads : ((List.range extra).all
              (fun i => decide (ci + a.previousColumns + i <
                cols.length))) = true := by
            simp only [List.all_eq_true, List.mem_range,
              decide_eq_true_eq]
            intro i hi
            omega
          have hanchor : decide (ci + a.previousColumns + extra <
              cols.length) = true := decide_eq_true hlt
          have happend : (decide (extra = 0) ||
              decide ((res ++ ((cols.drop ci).take
                a.previousColumns).map some) ≠ [])) = true := by
            by_cases hz : extra = 0
            · simp [hz]
            · have hp1 : 1 ≤ a.previousColumns := by
                rcases Nat.eq_zero_or_pos a.previousColumns with h0 | h0
                · exact absurd ⟨Nat.pos_of_ne_zero hz, h0⟩ hcond
                · exact h0
              have := decide_eq_true
                (res1_ne_nil cols ci a.previousColumns res hp1 hg')
              rw [this, Bool.or_true]
          refine ⟨⟨?_, ?_, ?_⟩, ?_⟩
          · rw [hprev, hreads, hanchor]
            rfl
          · exact hpnear
          · exact happend
          · intro ci' res' hout
            simp only [Option.some.injEq, Prod.mk.injEq] at hout
            omega

/-- Helper: field access on a conjunction of bounds records. -/
theorem accFlags_and_proj (f g : AccFlags) :
    (f.and g).readsOk = (f.readsOk && g.readsOk) ∧
    (f.and g).probesNear = (f.probesNear && g.probesNear) ∧
    (f.and g).lastOk = (f.lastOk && g.lastOk) := by
  exact ⟨rfl, rfl, rfl⟩

/-- Helper: over well-formed anchors the anchor loop's recorded
non-probe reads and last-slot accesses are in bounds, and its probes at
most one past the end. -/
theorem goAnchorsAcc_ok (sep : String) (cols : List String) :
    ∀ (as : List AnchorColumn),
      (∀ a ∈ as, (∀ m, a.metadata = some m → m.unbounded = false) ∧
        (a.metadata = none → 1 ≤ a.previousColumns)) →
      ∀ (ci : Nat) (res : List (Option String)),
        (goAnchorsAcc sep cols as ci res).2.readsOk = true ∧
        (goAnchorsAcc sep cols as ci res).2.probesNear = true ∧
        (goAnchorsAcc sep cols as ci res).2.lastOk = true := by
  intro as
  induction as with
  | nil =>
    intro _ ci res
    exact ⟨rfl, rfl, rfl⟩
  | cons a rest ih =>
    intro hgood ci res
    have ha := hgood a (by simp)
    have hstep := applyAnchorAcc_ok sep cols a ci res ha.1 ha.2
    have hrest := ih (fun b hb => hgood b (List.mem_cons_of_mem _ hb))
    simp only [goAnchorsAcc]
    cases happly : applyAnchorAcc sep cols a ci res with
    | mk r f =>
      cases r with
      | none =>
        rw [happly] at hstep
        exact hstep.1
      | some st =>
        cases st with
        | mk ci' res' =>
          rw [happly] at hstep
          have hf := hstep.1
          have hr := hrest ci' res'
          simp only [AccFlags.and]
          exact ⟨by rw [hf.1, (hr).1]; rfl,
            by rw [hf.2.1, (hr).2.1]; rfl,
            by rw [hf.2.2, (hr).2.2]; rfl⟩

/-- Helper: the instrumented alignment over derived anchors records only
in-bounds non-probe reads and last-slot accesses, with probes at most
one past the end. -/
theorem tryParseColumnsAcc_ok (cs : List ColumnMetadata) (sep : String)
    (cols : List String) :
    (tryParseColumnsAcc ⟨cs⟩ sep cols).2.readsOk = true ∧
    (tryParseColumnsAcc ⟨cs⟩ sep cols).2.probesNear = true ∧
    (tryParseColumnsAcc ⟨cs⟩ sep cols).2.lastOk = true := by
  unfold tryParseColumnsAcc
  by_cases hlen : cols.length < (FileMetadata.mk cs).columns.length
  · simp [hlen, AccFlags.allOk]
  · simp only [hlen, if_false]
    have hgo := goAnchorsAcc_ok sep cols
      (FileMetadata.anchorColumns ⟨cs⟩)
      (fun a ha => anchorsGo_good cs 0 a ha) 0 []
    cases hg : goAnchorsAcc sep cols (FileMetadata.anchorColumns ⟨cs⟩)
        0 [] with
    | mk r f =>
      rw [hg] at hgo
      cases r with
      | none => exact hgo
      | some st =>
        cases st with
        | mk ci res => exact hgo

/-- Helper: the instrumented retry loop over derived anchors records
only in-bounds non-probe reads and last-slot accesses, with probes at
most one past the end. -/
theorem mergeLoopAcc_ok (delim : String) (cs : List ColumnMetadata)
    (sep : String) :
    ∀ (rest skipped : List String),
      (mergeLoopAcc delim ⟨cs⟩ sep skipped rest).2.readsOk = true ∧
      (mergeLoopAcc delim ⟨cs⟩ sep skipped rest).2.probesNear = true ∧
      (mergeLoopAcc delim ⟨cs⟩ sep skipped rest).2.lastOk = true := by
  intro rest
  induction rest with
  | nil =>
    intro skipped
    exact ⟨rfl, rfl, rfl⟩
  | cons l ls ih =>
    intro skipped
    have htry := tryParseColumnsAcc_ok cs sep
      ((l :: ls).flatMap (jsSplit · delim))
    simp only [mergeLoopAcc]
    cases ht : tryParseColumnsAcc ⟨cs⟩ sep
        ((l :: ls).flatMap (jsSplit · delim)) with
    | mk r f =>
      rw [ht] at htry
      cases r with
      | none =>
        have hr := ih (skipped ++ [l])
        simp only [AccFlags.and]
        exact ⟨by rw [htry.1, hr.1]; rfl,
          by rw [htry.2.1, hr.2.1]; rfl,
          by rw [htry.2.2, hr.2.2]; rfl⟩
      | some c => exact htry

/-- C3 (refuting evaluation): with one unbounded column before two
bounded anchor columns, aligning the line `"u|noise|a"` makes the second
anchor's scan probe the raw-field list at index 3, one past its end
(`cols[colIndex + extraColIndex]` with the cursor already at
`cols.length`); and aligning `"u|noise|a|b"` writes the second anchor's
value at output index 3 while the output holds only 2 values
(`result[colIndex] = ...`). Both runs still return a defined result. -/
theorem parse_access_out_of_bounds_cases :
    ((parseAcc "|" exMetaUAB " " [] "u|noise|a").2.probesStrict = false ∧
      (parseAcc "|" exMetaUAB " " [] "u|noise|a").1.1.columns = none) ∧
    ((parseAcc "|" exMetaUAB " " [] "u|noise|a|b").2.writesOk = false ∧
      (parseAcc "|" exMetaUAB " " []
        "u|noise|a|b").1.1.columns.isSome = true) := by
  exact ⟨⟨rfl, rfl⟩, ⟨rfl, rfl⟩⟩

/-- C3 (amended): `parse` is total — the instrumented embedding, in
which every array access is an `Option`-returning read or a recorded
write, computes the same defined result, reporting alignment failure as
the explicit null value — and every access of the alignment loop is in
bounds except that the anchor scan's membership probe may read at most
one position past the raw-field list (acting as a failed match), and
the anchor-value write into the output list may land past its end. -/
theorem parse_total_and_access_bounds (delim : String)
    (cs : List ColumnMetadata) (sep : String) (st : List String)
    (line : String) :
    (parseAcc delim ⟨cs⟩ sep st line).1 = parse delim ⟨cs⟩ sep st line ∧
    (parseAcc delim ⟨cs⟩ sep st line).2.readsOk = true ∧
    (parseAcc delim ⟨cs⟩ sep st line).2.probesNear = true ∧
    (parseAcc delim ⟨cs⟩ sep st line).2.lastOk = true := by
  unfold parseAcc parse
  have htry := tryParseColumnsAcc_ok cs sep (jsSplit line delim)
  have hfst := tryParseColumnsAcc_fst ⟨cs⟩ sep (jsSplit line delim)
  cases ht : tryParseColumnsAcc ⟨cs⟩ sep (jsSplit line delim) with
  | mk r f =>
    rw [ht] at htry hfst
    simp only [ht, ← hfst]
    cases r with
    | some c => exact ⟨rfl, htry⟩
    | none =>
      by_cases hlen : 1 < (st ++ [line]).length
      · simp only [hlen, if_true]
        have hm := mergeLoopAcc_ok delim cs sep (st ++ [line]) []
        have hmf := mergeLoopAcc_fst delim ⟨cs⟩ sep (st ++ [line]) []
        cases hml : mergeLoopAcc delim ⟨cs⟩ sep [] (st ++ [line]) with
        | mk r2 f2 =>
          rw [hml] at hm hmf
          simp only [hml, ← hmf]
          cases r2 with
          | none =>
            simp only [AccFlags.and]
            exact ⟨trivial, by rw [htry.1, hm.1]; rfl,
              by rw [htry.2.1, hm.2.1]; rfl,
              by rw [htry.2.2, hm.2.2]; rfl⟩
          | some p =>
            cases p with
            | mk c skipped =>
              simp only [AccFlags.and]
              exact ⟨trivial, by rw [htry.1, hm.1]; rfl,
                by rw [htry.2.1, hm.2.1]; rfl,
                by rw [htry.2.2, hm.2.2]; rfl⟩
      · simp only [hlen, if_false]
        exact ⟨trivial, htry⟩

end FixDelimitedFile
